import Mathlib

/-!
# Verification of the clac RPN-calculator core

Shallow embedding of the evaluation core of the `clac` RPN calculator
(`clac.go` and `ops.go` of package `clac`): the value stack, the
undo/redo history of stack snapshots, the transactional `Exec` command
wrapper, the range-checked stack primitives, the arity-generic operand
application combinators, and a selection of the numeric commands built
on them.

Numeric values are modelled as exact rationals (`ℚ`); the underlying
numeric engine (the external `ivy` value library) is an opaque
collaborator that evaluates unary/binary operators and converts its
internal faults into returned errors, so its operators are modelled
here directly on `ℚ`.  Go slices become Lean lists (index 0 is the top
of the stack), Go methods that mutate the receiver become functions
returning the updated state, and Go `error` results become an `Err`
option/exception value.
-/

namespace Clac2Proof

/-- A numeric value: the engine's opaque scalar, modelled as an exact
rational. -/
abbrev Value := ℚ

/-- The error taxonomy of the core.  The Go code compares sentinel
`error` values by identity; here each sentinel is one constructor.
`evalErr` stands for any other fault surfaced by the numeric engine. -/
inductive Err where
  | tooFewArgs
  | invalidArg
  | outOfRange
  | noMoreChanges
  | noHistUpdate
  | evalErr
  deriving DecidableEq, Repr

/-- The `Stack` represents a stack of numeric values; index 0 is the
most-recently-pushed value ("x"). -/
abbrev Stack := List Value

/-- The `stackHist`: the undo/redo history — a cursor plus a sequence of
stack snapshots. -/
structure StackHist where
  cur : Nat
  hist : List Stack
  deriving DecidableEq, Repr

/-- The `newStackHist()`: a history holding one empty-stack snapshot with
the cursor on it. -/
def newStackHist : StackHist := ⟨0, [[]]⟩

/-- The `stackHist.undo`: move the cursor back one entry; reports whether
it moved. -/
def StackHist.undo (s : StackHist) : Bool × StackHist :=
  if s.cur ≤ 0 then (false, s) else (true, { s with cur := s.cur - 1 })

/-- The `stackHist.redo`: move the cursor forward one entry; reports
whether it moved. -/
def StackHist.redo (s : StackHist) : Bool × StackHist :=
  if s.cur ≥ s.hist.length - 1 then (false, s) else (true, { s with cur := s.cur + 1 })

/-- The `stackHist.push`: truncate everything after the cursor, append the
new snapshot, and advance the cursor onto it. -/
def StackHist.push (s : StackHist) (stack : Stack) : StackHist :=
  { cur := s.cur + 1, hist := s.hist.take (s.cur + 1) ++ [stack] }

/-- The `stackHist.replace`: overwrite the snapshot at the cursor in
place. -/
def StackHist.replace (s : StackHist) (stack : Stack) : StackHist :=
  { s with hist := s.hist.set s.cur stack }

/-- The `stackHist.stack`: the snapshot at the cursor. -/
def StackHist.stack (s : StackHist) : Stack :=
  s.hist.getD s.cur []

/-- The `Clac` represents an RPN calculator: the working stack, the
retain-history flag, and the snapshot history. -/
structure Clac where
  working : Stack
  keepHist : Bool
  hist : StackHist
  deriving DecidableEq, Repr

/-- A command: a function that transforms the calculator state and
returns an optional error (Go's `func() error` closing over the
receiver). -/
abbrev Cmd := Clac → Clac × Option Err

/-- The `updateWorking`: refresh the working stack to a copy of the
history snapshot at the cursor. -/
def Clac.updateWorking (c : Clac) : Clac :=
  { c with working := c.hist.stack }

/-- The `Reset`: restore the initial state — empty working stack, fresh
single-empty-snapshot history — and return the no-history-update
sentinel. -/
def Clac.Reset (c : Clac) : Clac × Option Err :=
  ({ c with working := [], hist := newStackHist }, some Err.noHistUpdate)

/-- The `New()`: an initialized instance — history retention on, then
`Reset`. -/
def Clac.new : Clac :=
  (Clac.Reset { working := [], keepHist := true, hist := newStackHist }).1

/-- The `EnableHistory`: set the retain-history flag; disabling also
replaces the history with a fresh one (the working stack is not
touched). -/
def Clac.EnableHistory (c : Clac) (enable : Bool) : Clac :=
  if enable then { c with keepHist := enable }
  else { c with keepHist := enable, hist := newStackHist }

/-- The `Exec`: run a command; on plain success commit the working stack
into history (append in retain mode, overwrite in ephemeral mode),
then refresh the working stack from the history cursor, and translate
the no-history-update sentinel into success. -/
def Clac.Exec (c : Clac) (f : Cmd) : Clac × Option Err :=
  let r := f c
  let c2 :=
    match r.2 with
    | none =>
        if r.1.keepHist then { r.1 with hist := r.1.hist.push r.1.working }
        else { r.1 with hist := r.1.hist.replace r.1.working }
    | some _ => r.1
  (c2.updateWorking,
    match r.2 with
    | some Err.noHistUpdate => none
    | e => e)

/-- The `checkRange(pos, num, isEndOK)`: validate the range
`[pos, pos+num-1]` against the working-stack length (length + 1 when
the end boundary is allowed), returning the start and end indices. -/
def Clac.checkRange (c : Clac) (pos num : Int) (isEndOK : Bool) :
    Except Err (Int × Int) :=
  let mx : Int := (c.working.length : Int) + (if isEndOK then 1 else 0)
  let start := pos
  let stop := pos + num - 1
  if start < 0 ∨ start > stop then .error Err.invalidArg
  else if start ≥ mx ∨ stop ≥ mx then .error Err.tooFewArgs
  else .ok (start, stop)

/-- The `insert(vals, pos)`: splice `vals` into the working stack at
`pos`, allowing insertion exactly at the end. -/
def Clac.insert (c : Clac) (vals : List Value) (pos : Int) : Clac × Option Err :=
  match c.checkRange pos 1 true with
  | .error e => (c, some e)
  | .ok (idx, _) =>
      ({ c with working :=
          c.working.take idx.toNat ++ vals ++ c.working.drop idx.toNat }, none)

/-- The `push(x) = insert([x], 0)`. -/
def Clac.push (c : Clac) (x : Value) : Clac × Option Err :=
  c.insert [x] 0

/-- The `remove(pos, num)`: extract and delete the range
`[start, end]` from the working stack, returning the removed values. -/
def Clac.remove (c : Clac) (pos num : Int) : Except Err (List Value) × Clac :=
  match c.checkRange pos num false with
  | .error e => (.error e, c)
  | .ok (start, stop) =>
      (.ok ((c.working.drop start.toNat).take (stop + 1 - start).toNat),
       { c with working :=
          c.working.take start.toNat ++ c.working.drop (stop + 1).toNat })

/-- The `pop() = remove(0, 1)`, returning the removed value. -/
def Clac.pop (c : Clac) : Except Err Value × Clac :=
  match c.remove 0 1 with
  | (.error e, c1) => (.error e, c1)
  | (.ok x, c1) => (.ok (x.headD 0), c1)

/-- The `Trunc`: round toward zero — floor for non-negative values, ceiling
for negative ones, evaluated through the numeric engine (which cannot
fail on these operations over exact rationals). -/
def Trunc (val : Value) : Except Err Value :=
  if val ≥ 0 then .ok ((⌊val⌋ : Int) : Value) else .ok ((⌈val⌉ : Int) : Value)

/-- Lower bound of the numeric engine's machine-integer type
(`value.Int` is an `int64`): this is `-2^63`. -/
def int64Min : Int := -9223372036854775808

/-- Upper bound of the numeric engine's machine-integer type
(`value.Int` is an `int64`): this is `2^63 - 1`. -/
def int64Max : Int := 9223372036854775807

/-- The `valToInt`: truncate toward zero and require an integer typed
as the engine's machine integer (the `val.(value.Int)` type
assertion), else `invalid argument`.  Modelled from the spec for the
external engine's integer representation: `value.Int` is an `int64`,
a truncation outside its range stays a big integer and fails the type
assertion — "truncation failure (non-numeric, overflow) is
`InvalidArgument`". -/
def valToInt (val : Value) : Except Err Int :=
  match Trunc val with
  | .error e => .error e
  | .ok t =>
      if t.den = 1 ∧ int64Min ≤ t.num ∧ t.num ≤ int64Max then .ok t.num
      else .error Err.invalidArg

/-- The `popIntMin(min)`: pop a value, coerce it to an integer, and
require it to be at least `min`; the popped value stays consumed even
when a later step fails. -/
def Clac.popIntMin (c : Clac) (min : Int) : Except Err Int × Clac :=
  match c.pop with
  | (.error e, c1) => (.error e, c1)
  | (.ok val, c1) =>
      match valToInt val with
      | .error e => (.error e, c1)
      | .ok n => if n < min then (.error Err.invalidArg, c1) else (.ok n, c1)

/-- The `popIndex() = popIntMin(0)`. -/
def Clac.popIndex (c : Clac) : Except Err Int × Clac :=
  c.popIntMin 0

/-- The `popCount() = popIntMin(1)`. -/
def Clac.popCount (c : Clac) : Except Err Int × Clac :=
  c.popIntMin 1

/-- The `binary(a, op, b)`: the numeric engine's binary evaluation.
Modelled from the spec: the engine is an opaque external collaborator
("NumericEngine") operating on exact values, converting internal
faults — division by zero is classed under the `InvalidArgument` kind
by the error taxonomy — into returned errors; the arithmetic operators
used by the embedded commands are interpreted over `ℚ`. -/
def binary (a : Value) (op : String) (b : Value) : Except Err Value :=
  match op with
  | "+" => .ok (a + b)
  | "-" => .ok (a - b)
  | "*" => .ok (a * b)
  | "/" => if b = 0 then .error Err.invalidArg else .ok (a / b)
  | _ => .error Err.evalErr

/-- The `variadic` arity sentinel. -/
def variadic : Int := -1

/-- The `applyFloat(arity, f)`: resolve a variadic arity by popping a
count, remove that many operands from the top, apply `f`, and push the
single result; any failure is returned with the state as mutated so
far. -/
def Clac.applyFloat (c : Clac) (arity : Int)
    (f : List Value → Except Err Value) : Clac × Option Err :=
  let ar :=
    if arity < 0 then
      match c.popCount with
      | (.error e, c1) => (Except.error e, c1)
      | (.ok n, c1) => (Except.ok n, c1)
    else (Except.ok arity, c)
  match ar with
  | (.error e, c1) => (c1, some e)
  | (.ok n, c1) =>
      match c1.remove 0 n with
      | (.error e, c2) => (c2, some e)
      | (.ok vals, c2) =>
          match f vals with
          | .error e => (c2, some e)
          | .ok res => c2.push res

/-- The `reduceFloat`: left fold of a fallible binary combinator over the
operand list, short-circuiting on the first failure. -/
def reduceFloat (initVal : Value) (vals : List Value)
    (f : Value → Value → Except Err Value) : Except Err Value :=
  match vals with
  | [] => .ok initVal
  | v :: vs =>
      match f initVal v with
      | .error e => .error e
      | .ok x => reduceFloat x vs f

/-- The truncation loop of `applyInt`: truncate every operand toward
zero, stopping at the first failure. -/
def truncVals (vals : List Value) : Except Err (List Value) :=
  match vals with
  | [] => .ok []
  | v :: vs =>
      match Trunc v with
      | .error e => .error e
      | .ok t =>
          match truncVals vs with
          | .error e => .error e
          | .ok ts => .ok (t :: ts)

/-- The `applyInt(arity, f)`: like `applyFloat` but truncates every
removed operand toward zero before applying `f`. -/
def Clac.applyInt (c : Clac) (arity : Int)
    (f : List Value → Except Err Value) : Clac × Option Err :=
  let ar :=
    if arity < 0 then
      match c.popCount with
      | (.error e, c1) => (Except.error e, c1)
      | (.ok n, c1) => (Except.ok n, c1)
    else (Except.ok arity, c)
  match ar with
  | (.error e, c1) => (c1, some e)
  | (.ok n, c1) =>
      match c1.remove 0 n with
      | (.error e, c2) => (c2, some e)
      | (.ok vals, c2) =>
          match truncVals vals with
          | .error e => (c2, some e)
          | .ok ivals =>
              match f ivals with
              | .error e => (c2, some e)
              | .ok res => c2.push res

/-- The `Undo`: move the history cursor back; `no more changes` when
already at the oldest state, otherwise the no-history-update
sentinel. -/
def Clac.Undo (c : Clac) : Clac × Option Err :=
  let r := c.hist.undo
  ({ c with hist := r.2 },
   if r.1 then some Err.noHistUpdate else some Err.noMoreChanges)

/-- The `Redo`: move the history cursor forward; `no more changes` when
already at the newest state, otherwise the no-history-update
sentinel. -/
def Clac.Redo (c : Clac) : Clac × Option Err :=
  let r := c.hist.redo
  ({ c with hist := r.2 },
   if r.1 then some Err.noHistUpdate else some Err.noMoreChanges)

/-- The `Push(a)`: push a value on the stack. -/
def Clac.Push (c : Clac) (a : Value) : Clac × Option Err :=
  c.push a

/-- The `Add`: the sum of y and x. -/
def Clac.Add (c : Clac) : Clac × Option Err :=
  c.applyFloat 2 (fun vals => binary (vals.getD 1 0) "+" (vals.getD 0 0))

/-- The operand function of `Div`: `binary(vals[1], "/", vals[0])`. -/
def divOperands (vals : List Value) : Except Err Value :=
  binary (vals.getD 1 0) "/" (vals.getD 0 0)

/-- The `Div`: the quotient of y divided by x. -/
def Clac.Div (c : Clac) : Clac × Option Err :=
  c.applyFloat 2 divOperands

/-- The `Sum`: the sum of the last x stack values. -/
def Clac.Sum (c : Clac) : Clac × Option Err :=
  c.applyFloat variadic (fun vals =>
    reduceFloat 0 vals (fun a b => binary a "+" b))

/-- The `for i := 2; i <= n; i++ { fact = fact * i }` loop of
`factorial`, with the iteration count made explicit. -/
def factGo : Nat → Int → Value → Value
  | 0, _, fact => fact
  | Nat.succ k, i, fact => factGo k (i + 1) (fact * (i : Value))

/-- The `factorial(val)`: coerce to an integer and multiply up the factors
`2, …, n` by repeated (engine) multiplication, which cannot fail. -/
def factorial (val : Value) : Except Err Value :=
  match valToInt val with
  | .error e => .error e
  | .ok n => .ok (factGo (n - 1).toNat 2 1)

/-- The `Factorial`: the factorial of x. -/
def Clac.Factorial (c : Clac) : Clac × Option Err :=
  c.applyInt 1 (fun vals => factorial (vals.getD 0 0))

/-! ### Auxiliary notions used to state the verified properties -/

instance {ε α : Type} [DecidableEq ε] [DecidableEq α] :
    DecidableEq (Except ε α) := fun a b =>
  match a, b with
  | .error e, .error f =>
      if h : e = f then isTrue (by rw [h])
      else isFalse (by intro hh; cases hh; exact h rfl)
  | .ok x, .ok y =>
      if h : x = y then isTrue (by rw [h])
      else isFalse (by intro hh; cases hh; exact h rfl)
  | .error _, .ok _ => isFalse (by intro h; cases h)
  | .ok _, .error _ => isFalse (by intro h; cases h)

/-- The history invariant: the snapshot sequence is never empty and
the cursor always addresses one of its entries. -/
def Invariant (c : Clac) : Prop :=
  c.hist.hist ≠ [] ∧ c.hist.cur < c.hist.hist.length

instance (c : Clac) : Decidable (Invariant c) := by
  unfold Invariant; infer_instance

/-- A command that only transforms the working stack and reports plain
success — the shape of every successful mutating stack command. -/
def cmdOfFn (g : Stack → Stack) : Cmd :=
  fun c => ({ c with working := g c.working }, none)

/-- Execute a sequence of successful stack commands through `Exec`. -/
def execCmds (c : Clac) (gs : List (Stack → Stack)) : Clac :=
  gs.foldl (fun st g => (st.Exec (cmdOfFn g)).1) c

/-- The composite effect of a command sequence on a stack. -/
def applyAll (gs : List (Stack → Stack)) (s : Stack) : Stack :=
  gs.foldl (fun st g => g st) s

/-- The successive snapshots committed by a command sequence started
on stack `s`. -/
def snapList (gs : List (Stack → Stack)) (s : Stack) : List Stack :=
  match gs with
  | [] => []
  | g :: rest => g s :: snapList rest (g s)

/-- Call `Undo` through `Exec` the given number of times, recording
whether every call returned success. -/
def execUndoN : Nat → Clac → Clac × Bool
  | 0, c => (c, true)
  | n + 1, c =>
      let r := c.Exec Clac.Undo
      let rest := execUndoN n r.1
      (rest.1, r.2.isNone && rest.2)

/-- Call `Redo` through `Exec` the given number of times, recording
whether every call returned success. -/
def execRedoN : Nat → Clac → Clac × Bool
  | 0, c => (c, true)
  | n + 1, c =>
      let r := c.Exec Clac.Redo
      let rest := execRedoN n r.1
      (rest.1, r.2.isNone && rest.2)

/-- Call `Redo` through `Exec` the given number of times, keeping only
the final state. -/
def redoN : Nat → Clac → Clac
  | 0, c => c
  | n + 1, c => redoN n (c.Exec Clac.Redo).1

/-- Truncation toward zero as a plain integer (the value `Trunc`
wraps and `valToInt` extracts). -/
def truncInt (val : Value) : Int :=
  if val ≥ 0 then ⌊val⌋ else ⌈val⌉

/-- A calculator whose committed and working stack is `[0, 10]`
(top-first: x = 0, y = 10). -/
def c010 : Clac := ⟨[0, 10], true, ⟨0, [[0, 10]]⟩⟩

/-! ### Basic lemmas about the state operations -/

@[simp] theorem updateWorking_hist (c : Clac) : c.updateWorking.hist = c.hist := rfl

@[simp] theorem updateWorking_working (c : Clac) :
    c.updateWorking.working = c.hist.stack := rfl

@[simp] theorem updateWorking_keepHist (c : Clac) :
    c.updateWorking.keepHist = c.keepHist := rfl

/-- The `Exec` on a command that returned the no-history-update sentinel:
no commit, refresh, and the sentinel becomes success. -/
theorem Exec_err_sentinel (c : Clac) (f : Cmd)
    (h : (f c).2 = some Err.noHistUpdate) :
    c.Exec f = ((f c).1.updateWorking, none) := by
  simp [Clac.Exec, h]

/-- The `Exec` on a command that returned a real error: no commit, the
working stack is refreshed from the (possibly command-modified)
history, and the error is propagated unchanged. -/
theorem Exec_err_other (c : Clac) (f : Cmd) {e : Err} (h : (f c).2 = some e)
    (hne : e ≠ Err.noHistUpdate) :
    c.Exec f = ((f c).1.updateWorking, some e) := by
  cases e <;> first | exact absurd rfl hne | simp [Clac.Exec, h]

/-- The `Exec` on a command that returned plain success: commit according
to the retain/ephemeral policy, then refresh the working stack. -/
theorem Exec_ok (c : Clac) (f : Cmd) (h : (f c).2 = none) :
    c.Exec f =
      ((if (f c).1.keepHist then
          { (f c).1 with hist := (f c).1.hist.push (f c).1.working }
        else
          { (f c).1 with hist := (f c).1.hist.replace (f c).1.working }).updateWorking,
       none) := by
  simp [Clac.Exec, h]

/-- The `checkRange` succeeds exactly on well-formed in-bounds ranges. -/
theorem checkRange_ok (c : Clac) {pos num : Int} {isEndOK : Bool}
    (h1 : 0 ≤ pos) (h2 : 1 ≤ num)
    (h3 : pos + num ≤ (c.working.length : Int) + (if isEndOK then 1 else 0)) :
    c.checkRange pos num isEndOK = .ok (pos, pos + num - 1) := by
  cases isEndOK <;>
    · simp only [Clac.checkRange, Bool.false_eq_true, if_true, if_false] at h3 ⊢
      rw [if_neg (by omega), if_neg (by omega)]

/-- The `checkRange` rejects ranges reaching past the permitted length
with `too few arguments`. -/
theorem checkRange_tooFew (c : Clac) {pos num : Int} {isEndOK : Bool}
    (h1 : 0 ≤ pos) (h2 : 1 ≤ num)
    (h3 : (c.working.length : Int) + (if isEndOK then 1 else 0) ≤ pos + num - 1 ∨
          (c.working.length : Int) + (if isEndOK then 1 else 0) ≤ pos) :
    c.checkRange pos num isEndOK = .error Err.tooFewArgs := by
  cases isEndOK <;>
    · simp only [Clac.checkRange, Bool.false_eq_true, if_true, if_false] at h3 ⊢
      rw [if_neg (by omega), if_pos (by omega)]

/-- The `remove` on an in-bounds range extracts it and keeps the rest. -/
theorem remove_ok (c : Clac) {pos num : Int} (h1 : 0 ≤ pos) (h2 : 1 ≤ num)
    (h3 : pos + num ≤ (c.working.length : Int)) :
    c.remove pos num =
      (.ok ((c.working.drop pos.toNat).take num.toNat),
       { c with working :=
          c.working.take pos.toNat ++ c.working.drop (pos + num).toNat }) := by
  unfold Clac.remove
  rw [checkRange_ok c h1 h2 (by simpa using h3)]
  have e1 : (pos + num - 1 + 1 - pos).toNat = num.toNat := by omega
  have e2 : (pos + num - 1 + 1).toNat = (pos + num).toNat := by omega
  dsimp only
  rw [e1, e2]

/-- The `remove` propagates a failing range check and leaves the state
untouched. -/
theorem remove_err (c : Clac) {pos num : Int} {e : Err}
    (h : c.checkRange pos num false = .error e) :
    c.remove pos num = (.error e, c) := by
  unfold Clac.remove
  rw [h]

/-- The `push` always succeeds and conses onto the working stack. -/
theorem push_eq (c : Clac) (x : Value) :
    c.push x = ({ c with working := x :: c.working }, none) := by
  unfold Clac.push Clac.insert
  rw [checkRange_ok c (by omega) (by omega) (by simp)]
  simp

/-- The `pop` on a non-empty stack returns the top and drops it. -/
theorem pop_cons (c : Clac) {v : Value} {rest : Stack}
    (h : c.working = v :: rest) :
    c.pop = (.ok v, { c with working := rest }) := by
  unfold Clac.pop
  rw [remove_ok c (by omega) (by omega) (by rw [h]; simp)]
  simp [h]

/-- The `pop` on an empty stack fails with `too few arguments`. -/
theorem pop_nil (c : Clac) (h : c.working = []) :
    c.pop = (.error Err.tooFewArgs, c) := by
  unfold Clac.pop
  rw [remove_err c (checkRange_tooFew c (by omega) (by omega) (by rw [h]; simp))]

/-- The `Trunc` over exact rationals always succeeds and agrees with
`truncInt`. -/
theorem Trunc_eq (val : Value) :
    Trunc val = .ok ((truncInt val : Int) : Value) := by
  unfold Trunc truncInt
  split_ifs <;> rfl

/-- The `valToInt` over exact rationals succeeds with the truncation
toward zero exactly when that truncation fits the engine's machine
integer range, and fails with `invalid argument` otherwise. -/
theorem valToInt_eq (val : Value) :
    valToInt val =
      if int64Min ≤ truncInt val ∧ truncInt val ≤ int64Max then
        .ok (truncInt val)
      else .error Err.invalidArg := by
  unfold valToInt
  rw [Trunc_eq]
  simp

/-- Truncation toward zero fixes integers. -/
theorem truncInt_intCast (n : Int) : truncInt ((n : Int) : Value) = n := by
  unfold truncInt
  split_ifs <;> simp

/-- The truncation loop of `applyInt` always succeeds, truncating
element-wise. -/
theorem truncVals_eq (vals : List Value) :
    truncVals vals = .ok (vals.map fun v => ((truncInt v : Int) : Value)) := by
  induction vals with
  | nil => rfl
  | cons v vs ih =>
      unfold truncVals
      rw [Trunc_eq, ih]
      rfl

/-- The `popIntMin` on a non-empty stack: the top is consumed and
truncated, then checked against the bound. -/
theorem popIntMin_cons (c : Clac) {v : Value} {rest : Stack}
    (h : c.working = v :: rest) (min : Int) :
    c.popIntMin min =
      (if int64Min ≤ truncInt v ∧ truncInt v ≤ int64Max then
         if truncInt v < min then .error Err.invalidArg
         else .ok (truncInt v)
       else .error Err.invalidArg,
       { c with working := rest }) := by
  unfold Clac.popIntMin
  rw [pop_cons c h]
  dsimp only
  rw [valToInt_eq]
  split_ifs with hr hlt
  · dsimp only
    rw [if_pos hlt]
  · dsimp only
    rw [if_neg hlt]
  · rfl

/-- The `popIntMin` on an empty stack fails with `too few arguments`. -/
theorem popIntMin_nil (c : Clac) (h : c.working = []) (min : Int) :
    c.popIntMin min = (.error Err.tooFewArgs, c) := by
  unfold Clac.popIntMin
  rw [pop_nil c h]

/-- Inversion for a successful `checkRange`. -/
theorem checkRange_ok_inv (c : Clac) {pos num : Int} {isEndOK : Bool}
    {s t : Int} (h : c.checkRange pos num isEndOK = .ok (s, t)) :
    s = pos ∧ t = pos + num - 1 ∧ 0 ≤ pos ∧ 1 ≤ num ∧
    pos + num ≤ (c.working.length : Int) + (if isEndOK then 1 else 0) := by
  unfold Clac.checkRange at h
  dsimp only at h
  set mx : Int := (c.working.length : Int) + (if isEndOK then 1 else 0) with hmx
  split_ifs at h with h1 h2
  all_goals simp at h
  obtain ⟨hs, ht⟩ := h
  refine ⟨by omega, by omega, by omega, by omega, by omega⟩

/-- Inversion for a successful `remove`: the bounds were valid and the
retained stack is the outer remainder. -/
theorem remove_ok_inv (c : Clac) {pos num : Int} {vals : List Value}
    {c2 : Clac} (h : c.remove pos num = (.ok vals, c2)) :
    c2 = { c with working :=
            c.working.take pos.toNat ++ c.working.drop (pos + num).toNat } ∧
    0 ≤ pos ∧ 1 ≤ num ∧ pos + num ≤ (c.working.length : Int) := by
  unfold Clac.remove at h
  cases hcr : c.checkRange pos num false with
  | error e => rw [hcr] at h; simp at h
  | ok st =>
      rcases st with ⟨s, t⟩
      obtain ⟨hs, ht, hp, hn, hb⟩ := checkRange_ok_inv c hcr
      rw [hcr] at h
      dsimp only at h
      have hc2 := (congrArg Prod.snd h).symm
      dsimp only at hc2
      rw [hs, ht] at hc2
      refine ⟨?_, hp, hn, by simpa using hb⟩
      rw [hc2]
      have e2 : (pos + num - 1 + 1).toNat = (pos + num).toNat := by omega
      rw [e2]

/-- Inversion for a successful `pop`: one value was consumed from a
then-non-empty stack. -/
theorem pop_ok_inv (c : Clac) {v : Value} {c1 : Clac}
    (h : c.pop = (.ok v, c1)) :
    c1 = { c with working := c.working.drop 1 } ∧ 1 ≤ c.working.length := by
  rcases hw : c.working with _ | ⟨x, rest⟩
  · rw [pop_nil c hw] at h
    simp at h
  · rw [pop_cons c hw] at h
    have hc1 := (congrArg Prod.snd h).symm
    dsimp only at hc1
    exact ⟨hc1, by simp⟩

/-- Inversion for a successful `popIntMin`: one value was consumed and
the returned integer meets the bound. -/
theorem popIntMin_ok_inv (c : Clac) {min n : Int} {c1 : Clac}
    (h : c.popIntMin min = (.ok n, c1)) :
    c1 = { c with working := c.working.drop 1 } ∧
    1 ≤ c.working.length ∧ min ≤ n := by
  rcases hw : c.working with _ | ⟨x, rest⟩
  · rw [popIntMin_nil c hw] at h
    simp at h
  · rw [popIntMin_cons c hw] at h
    split_ifs at h with hr hlt
    · simp at h
    · simp only [Prod.mk.injEq, Except.ok.injEq] at h
      obtain ⟨hn, hc⟩ := h
      exact ⟨hc.symm, by simp, by omega⟩
    · simp at h

/-- The `remove` never touches the history or the policy flag. -/
theorem remove_state (c : Clac) (pos num : Int) :
    (c.remove pos num).2.hist = c.hist ∧
    (c.remove pos num).2.keepHist = c.keepHist := by
  unfold Clac.remove
  cases hcr : c.checkRange pos num false with
  | error e => exact ⟨rfl, rfl⟩
  | ok st => rcases st with ⟨s, t⟩; exact ⟨rfl, rfl⟩

/-- The `pop` never touches the history or the policy flag. -/
theorem pop_state (c : Clac) :
    (c.pop).2.hist = c.hist ∧ (c.pop).2.keepHist = c.keepHist := by
  unfold Clac.pop
  rcases hr : c.remove 0 1 with ⟨r, c1⟩
  have hs := remove_state c 0 1
  rw [hr] at hs
  cases r <;> exact hs

/-- The `popIntMin` never touches the history or the policy flag. -/
theorem popIntMin_state (c : Clac) (min : Int) :
    (c.popIntMin min).2.hist = c.hist ∧
    (c.popIntMin min).2.keepHist = c.keepHist := by
  unfold Clac.popIntMin
  rcases hr : c.pop with ⟨r, c1⟩
  have hs := pop_state c
  rw [hr] at hs
  cases r with
  | error e => exact hs
  | ok val =>
      dsimp only
      cases valToInt val with
      | error e => exact hs
      | ok n =>
          dsimp only
          split_ifs <;> exact hs

/-- The `insert` never touches the history or the policy flag. -/
theorem insert_state (c : Clac) (vals : List Value) (pos : Int) :
    (c.insert vals pos).1.hist = c.hist ∧
    (c.insert vals pos).1.keepHist = c.keepHist := by
  unfold Clac.insert
  cases hcr : c.checkRange pos 1 true with
  | error e => exact ⟨rfl, rfl⟩
  | ok st => rcases st with ⟨s, t⟩; exact ⟨rfl, rfl⟩

/-- The `applyFloat` with the variadic arity propagates a failing count
pop, keeping the state the failing pop produced. -/
theorem applyFloat_variadic_countErr (c : Clac) {e : Err} {c1 : Clac}
    (f : List Value → Except Err Value)
    (h : c.popCount = (.error e, c1)) :
    c.applyFloat variadic f = (c1, some e) := by
  unfold Clac.applyFloat variadic
  rw [if_pos (by norm_num)]
  rw [h]

/-- The `applyInt` with the variadic arity propagates a failing count
pop, keeping the state the failing pop produced. -/
theorem applyInt_variadic_countErr (c : Clac) {e : Err} {c1 : Clac}
    (f : List Value → Except Err Value)
    (h : c.popCount = (.error e, c1)) :
    c.applyInt variadic f = (c1, some e) := by
  unfold Clac.applyInt variadic
  rw [if_pos (by norm_num)]
  rw [h]

/-- The `applyFloat` preserves the history and the policy flag, and on
success it has consumed a prefix of the working stack (the operands,
plus the count in variadic form) and pushed exactly the one result. -/
theorem applyFloat_char (c : Clac) (arity : Int)
    (f : List Value → Except Err Value) :
    ((c.applyFloat arity f).1.hist = c.hist ∧
     (c.applyFloat arity f).1.keepHist = c.keepHist) ∧
    ((c.applyFloat arity f).2 = none →
      ∃ n res, n ≤ c.working.length ∧
        (c.applyFloat arity f).1.working = res :: c.working.drop n) := by
  unfold Clac.applyFloat
  by_cases ha : arity < 0
  · rw [if_pos ha]
    rcases hpc : c.popCount with ⟨r, c1⟩
    have hst := popIntMin_state c 1
    rw [show c.popIntMin 1 = c.popCount from rfl, hpc] at hst
    cases r with
    | error e =>
        dsimp only
        exact ⟨hst, by intro h; simp at h⟩
    | ok n =>
        dsimp only
        obtain ⟨hc1, hlen, -⟩ := popIntMin_ok_inv c hpc
        rcases hr : c1.remove 0 n with ⟨r2, c2⟩
        have hst2 := remove_state c1 0 n
        rw [hr] at hst2
        cases r2 with
        | error e =>
            dsimp only
            exact ⟨⟨hst2.1.trans hst.1, hst2.2.trans hst.2⟩,
                   by intro h; simp at h⟩
        | ok vals =>
            dsimp only
            obtain ⟨hc2, -, hn1, hnlen⟩ := remove_ok_inv c1 hr
            rcases hf : f vals with e | res
            · dsimp only
              exact ⟨⟨hst2.1.trans hst.1, hst2.2.trans hst.2⟩,
                     by intro h; simp at h⟩
            · dsimp only
              rw [push_eq]
              refine ⟨⟨hst2.1.trans hst.1, hst2.2.trans hst.2⟩, ?_⟩
              intro _
              refine ⟨1 + n.toNat, res, ?_, ?_⟩
              · rw [hc1] at hnlen
                simp at hnlen
                omega
              · rw [hc2, hc1]
                simp [List.drop_drop]
                congr 1
                omega
  · rw [if_neg ha]
    dsimp only
    rcases hr : c.remove 0 arity with ⟨r2, c2⟩
    have hst2 := remove_state c 0 arity
    rw [hr] at hst2
    cases r2 with
    | error e =>
        dsimp only
        exact ⟨hst2, by intro h; simp at h⟩
    | ok vals =>
        dsimp only
        obtain ⟨hc2, -, hn1, hnlen⟩ := remove_ok_inv c hr
        rcases hf : f vals with e | res
        · dsimp only
          exact ⟨hst2, by intro h; simp at h⟩
        · dsimp only
          rw [push_eq]
          refine ⟨hst2, ?_⟩
          intro _
          refine ⟨arity.toNat, res, by omega, ?_⟩
          rw [hc2]
          simp

/-- The `applyInt` preserves the history and the policy flag, and on
success it has consumed a prefix of the working stack and pushed
exactly the one result. -/
theorem applyInt_char (c : Clac) (arity : Int)
    (f : List Value → Except Err Value) :
    ((c.applyInt arity f).1.hist = c.hist ∧
     (c.applyInt arity f).1.keepHist = c.keepHist) ∧
    ((c.applyInt arity f).2 = none →
      ∃ n res, n ≤ c.working.length ∧
        (c.applyInt arity f).1.working = res :: c.working.drop n) := by
  unfold Clac.applyInt
  by_cases ha : arity < 0
  · rw [if_pos ha]
    rcases hpc : c.popCount with ⟨r, c1⟩
    have hst := popIntMin_state c 1
    rw [show c.popIntMin 1 = c.popCount from rfl, hpc] at hst
    cases r with
    | error e =>
        dsimp only
        exact ⟨hst, by intro h; simp at h⟩
    | ok n =>
        dsimp only
        obtain ⟨hc1, hlen, -⟩ := popIntMin_ok_inv c hpc
        rcases hr : c1.remove 0 n with ⟨r2, c2⟩
        have hst2 := remove_state c1 0 n
        rw [hr] at hst2
        cases r2 with
        | error e =>
            dsimp only
            exact ⟨⟨hst2.1.trans hst.1, hst2.2.trans hst.2⟩,
                   by intro h; simp at h⟩
        | ok vals =>
            dsimp only
            obtain ⟨hc2, -, hn1, hnlen⟩ := remove_ok_inv c1 hr
            rw [truncVals_eq]
            dsimp only
            rcases hf : f (vals.map fun v => ((truncInt v : Int) : Value))
              with e | res
            · dsimp only
              exact ⟨⟨hst2.1.trans hst.1, hst2.2.trans hst.2⟩,
                     by intro h; simp at h⟩
            · dsimp only
              rw [push_eq]
              refine ⟨⟨hst2.1.trans hst.1, hst2.2.trans hst.2⟩, ?_⟩
              intro _
              refine ⟨1 + n.toNat, res, ?_, ?_⟩
              · rw [hc1] at hnlen
                simp at hnlen
                omega
              · rw [hc2, hc1]
                simp [List.drop_drop]
                congr 1
                omega
  · rw [if_neg ha]
    dsimp only
    rcases hr : c.remove 0 arity with ⟨r2, c2⟩
    have hst2 := remove_state c 0 arity
    rw [hr] at hst2
    cases r2 with
    | error e =>
        dsimp only
        exact ⟨hst2, by intro h; simp at h⟩
    | ok vals =>
        dsimp only
        obtain ⟨hc2, -, hn1, hnlen⟩ := remove_ok_inv c hr
        rw [truncVals_eq]
        dsimp only
        rcases hf : f (vals.map fun v => ((truncInt v : Int) : Value))
          with e | res
        · dsimp only
          exact ⟨hst2, by intro h; simp at h⟩
        · dsimp only
          rw [push_eq]
          refine ⟨hst2, ?_⟩
          intro _
          refine ⟨arity.toNat, res, by omega, ?_⟩
          rw [hc2]
          simp

/-- Pushing onto a history whose cursor is in range puts the new
snapshot at the cursor. -/
theorem StackHist_push_stack (s : StackHist) (st : Stack)
    (h : s.cur < s.hist.length) :
    (s.push st).stack = st := by
  unfold StackHist.push StackHist.stack
  dsimp only
  have hlen : (s.hist.take (s.cur + 1)).length = s.cur + 1 := by
    simp
    omega
  rw [List.getD_eq_getElem?_getD, List.getElem?_append_right (by omega),
      hlen]
  simp

/-- The `Exec` of a successful stack command in retain mode: the command
result is committed as a new snapshot and becomes the working stack. -/
theorem Exec_cmdOfFn (c : Clac) (g : Stack → Stack)
    (hk : c.keepHist = true) (hcur : c.hist.cur < c.hist.hist.length) :
    c.Exec (cmdOfFn g) =
      (⟨g c.working, true, c.hist.push (g c.working)⟩, none) := by
  rw [Exec_ok c _ rfl]
  have hk2 : (cmdOfFn g c).1.keepHist = true := hk
  rw [if_pos hk2]
  unfold Clac.updateWorking cmdOfFn
  dsimp only
  rw [StackHist_push_stack _ _ hcur, hk]

/-- The `Exec Undo` with the cursor off the oldest entry: the cursor moves
back one snapshot and the working stack follows it. -/
theorem Exec_Undo_pos (c : Clac) (h : 0 < c.hist.cur) :
    c.Exec Clac.Undo =
      (⟨c.hist.hist.getD (c.hist.cur - 1) [], c.keepHist,
        ⟨c.hist.cur - 1, c.hist.hist⟩⟩, none) := by
  have hu : Clac.Undo c =
      ({ c with hist := ⟨c.hist.cur - 1, c.hist.hist⟩ }, some Err.noHistUpdate) := by
    unfold Clac.Undo StackHist.undo
    rw [if_neg (by omega)]
    rfl
  rw [Exec_err_sentinel c _ (by rw [hu])]
  rw [hu]
  rfl

/-- The `Exec Undo` at the oldest entry: `no more changes`, and the state
is only refreshed from the unchanged history. -/
theorem Exec_Undo_zero (c : Clac) (h : c.hist.cur = 0) :
    c.Exec Clac.Undo =
      (⟨c.hist.stack, c.keepHist, c.hist⟩, some Err.noMoreChanges) := by
  have hu : Clac.Undo c = (c, some Err.noMoreChanges) := by
    unfold Clac.Undo StackHist.undo
    rw [if_pos (by omega)]
    rfl
  rw [Exec_err_other c _ (by rw [hu]) (by intro hx; cases hx)]
  rw [hu]
  rfl

/-- The `Exec Redo` with redoable entries ahead: the cursor moves forward
one snapshot and the working stack follows it. -/
theorem Exec_Redo_lt (c : Clac) (h : c.hist.cur + 1 < c.hist.hist.length) :
    c.Exec Clac.Redo =
      (⟨c.hist.hist.getD (c.hist.cur + 1) [], c.keepHist,
        ⟨c.hist.cur + 1, c.hist.hist⟩⟩, none) := by
  have hu : Clac.Redo c =
      ({ c with hist := ⟨c.hist.cur + 1, c.hist.hist⟩ }, some Err.noHistUpdate) := by
    unfold Clac.Redo StackHist.redo
    rw [if_neg (by omega)]
    rfl
  rw [Exec_err_sentinel c _ (by rw [hu])]
  rw [hu]
  rfl

/-- The `Exec Redo` at the newest entry: `no more changes`, and the state
is only refreshed from the unchanged history. -/
theorem Exec_Redo_last (c : Clac) (h : c.hist.hist.length ≤ c.hist.cur + 1) :
    c.Exec Clac.Redo =
      (⟨c.hist.stack, c.keepHist, c.hist⟩, some Err.noMoreChanges) := by
  have hu : Clac.Redo c = (c, some Err.noMoreChanges) := by
    unfold Clac.Redo StackHist.redo
    rw [if_pos (by omega)]
    rfl
  rw [Exec_err_other c _ (by rw [hu]) (by intro hx; cases hx)]
  rw [hu]
  rfl

/-- The `snapList` produces one snapshot per command. -/
theorem snapList_length (gs : List (Stack → Stack)) (st : Stack) :
    (snapList gs st).length = gs.length := by
  induction gs generalizing st with
  | nil => rfl
  | cons g rest ih => simp [snapList, ih]

/-- The last snapshot of a command sequence is its composite effect. -/
theorem snapList_getD_last (gs : List (Stack → Stack)) (st : Stack)
    (h : gs ≠ []) :
    (snapList gs st).getD (gs.length - 1) [] = applyAll gs st := by
  induction gs generalizing st with
  | nil => exact absurd rfl h
  | cons g rest ih =>
      rcases rest with _ | ⟨g2, rest2⟩
      · rfl
      · show (g st :: snapList (g2 :: rest2) (g st)).getD
            ((g2 :: rest2).length + 1 - 1) [] = _
        rw [Nat.add_sub_cancel,
            show (g2 :: rest2).length = rest2.length + 1 from rfl,
            List.getD_cons_succ,
            show rest2.length = (g2 :: rest2).length - 1 by simp,
            ih (g st) (by simp)]
        rfl

/-- Characterization of a non-empty successful command sequence in
retain mode: the history keeps the prefix up to the cursor, gains one
snapshot per command, and the cursor ends on the last snapshot. -/
theorem execCmds_cons_char (gs : List (Stack → Stack)) :
    ∀ (g : Stack → Stack) (c : Clac), c.keepHist = true →
      c.hist.cur < c.hist.hist.length → c.working = c.hist.stack →
      execCmds c (g :: gs) =
        ⟨applyAll (g :: gs) c.working, true,
         ⟨c.hist.cur + (g :: gs).length,
          c.hist.hist.take (c.hist.cur + 1) ++ snapList (g :: gs) c.working⟩⟩ := by
  induction gs with
  | nil =>
      intro g c hk hcur hsync
      show (c.Exec (cmdOfFn g)).1 = _
      rw [Exec_cmdOfFn c g hk hcur]
      rfl
  | cons g2 rest ih =>
      intro g c hk hcur hsync
      show execCmds (c.Exec (cmdOfFn g)).1 (g2 :: rest) = _
      rw [Exec_cmdOfFn c g hk hcur]
      dsimp only
      rw [ih g2 ⟨g c.working, true, c.hist.push (g c.working)⟩ rfl
          (by simp [StackHist.push]; omega)
          (StackHist_push_stack _ _ hcur).symm]
      dsimp only [StackHist.push]
      have htk : List.take (c.hist.cur + 1 + 1)
          (List.take (c.hist.cur + 1) c.hist.hist ++ [g c.working]) =
          List.take (c.hist.cur + 1) c.hist.hist ++ [g c.working] := by
        apply List.take_of_length_le
        simp
      have hcur2 : c.hist.cur + 1 + (g2 :: rest).length =
          c.hist.cur + (g :: g2 :: rest).length := by
        simp
        omega
      rw [htk, hcur2, List.append_assoc]
      rfl

/-- Characterization of iterated `Exec Undo`: with enough history
behind the cursor, every call succeeds, the cursor moves back `n`
entries and the working stack follows it; nothing else changes. -/
theorem execUndoN_char : ∀ (n : Nat) (c : Clac), n ≤ c.hist.cur →
    c.working = c.hist.stack →
    execUndoN n c =
      (⟨c.hist.hist.getD (c.hist.cur - n) [], c.keepHist,
        ⟨c.hist.cur - n, c.hist.hist⟩⟩, true) := by
  intro n
  induction n with
  | zero =>
      intro c hn hsync
      show (c, true) = _
      rcases c with ⟨w, k, ⟨cur, hl⟩⟩
      rw [show w = StackHist.stack ⟨cur, hl⟩ from hsync]
      rfl
  | succ m ih =>
      intro c hn hsync
      rw [execUndoN, Exec_Undo_pos c (by omega)]
      dsimp only
      rw [ih ⟨c.hist.hist.getD (c.hist.cur - 1) [], c.keepHist,
            ⟨c.hist.cur - 1, c.hist.hist⟩⟩ (by dsimp only; omega) rfl]
      dsimp only
      have hsub : c.hist.cur - 1 - m = c.hist.cur - (m + 1) := by omega
      rw [hsub]
      rfl

/-- Characterization of iterated `Exec Redo`: with enough history
ahead of the cursor, every call succeeds, the cursor moves forward `n`
entries and the working stack follows it; nothing else changes. -/
theorem execRedoN_char : ∀ (n : Nat) (c : Clac),
    c.hist.cur + n < c.hist.hist.length →
    c.working = c.hist.stack →
    execRedoN n c =
      (⟨c.hist.hist.getD (c.hist.cur + n) [], c.keepHist,
        ⟨c.hist.cur + n, c.hist.hist⟩⟩, true) := by
  intro n
  induction n with
  | zero =>
      intro c hn hsync
      show (c, true) = _
      rcases c with ⟨w, k, ⟨cur, hl⟩⟩
      rw [show w = StackHist.stack ⟨cur, hl⟩ from hsync]
      rfl
  | succ m ih =>
      intro c hn hsync
      rw [execRedoN, Exec_Redo_lt c (by omega)]
      dsimp only
      rw [ih ⟨c.hist.hist.getD (c.hist.cur + 1) [], c.keepHist,
            ⟨c.hist.cur + 1, c.hist.hist⟩⟩ (by dsimp only; omega) rfl]
      dsimp only
      have hadd : c.hist.cur + 1 + m = c.hist.cur + (m + 1) := by omega
      rw [hadd]
      rfl

/-- The `getD` into the left part of an append. -/
theorem getD_append_left {α : Type} (l1 l2 : List α) (i : Nat) (d : α)
    (h : i < l1.length) : (l1 ++ l2).getD i d = l1.getD i d := by
  rw [List.getD_eq_getElem?_getD, List.getD_eq_getElem?_getD,
      List.getElem?_append, if_pos h]

/-- The `getD` into the right part of an append. -/
theorem getD_append_right {α : Type} (l1 l2 : List α) (i : Nat) (d : α)
    (h : l1.length ≤ i) :
    (l1 ++ l2).getD i d = l2.getD (i - l1.length) d := by
  rw [List.getD_eq_getElem?_getD, List.getD_eq_getElem?_getD,
      List.getElem?_append_right h]

/-- The `getD` into a prefix. -/
theorem getD_take {α : Type} (l : List α) (n i : Nat) (d : α)
    (h : i < n) : (l.take n).getD i d = l.getD i d := by
  rw [List.getD_eq_getElem?_getD, List.getD_eq_getElem?_getD,
      List.getElem?_take, if_pos h]

/-! ### The verified claims -/

/-- C1: For every command function `f`, `Exec f` behaves as follows: on
`nil` (plain success) the working stack is committed into history —
appended with cursor advance in retain mode, overwritten in place in
ephemeral mode — and `Exec` returns success, re-syncing the working
stack; on the `NoHistoryUpdate` sentinel no commit occurs and `Exec`
returns success (the sentinel is never surfaced); on any other error
no commit occurs, the working stack is refreshed back to the snapshot
at the history cursor (rollback), and the error is returned
unchanged. -/
theorem exec_transaction_protocol (c : Clac) (f : Cmd) :
    ((f c).2 = none → (f c).1.keepHist = true →
      (c.Exec f).2 = none ∧
      (c.Exec f).1.hist = (f c).1.hist.push (f c).1.working ∧
      (c.Exec f).1.working = (c.Exec f).1.hist.stack) ∧
    ((f c).2 = none → (f c).1.keepHist = false →
      (c.Exec f).2 = none ∧
      (c.Exec f).1.hist = (f c).1.hist.replace (f c).1.working ∧
      (c.Exec f).1.working = (c.Exec f).1.hist.stack) ∧
    ((f c).2 = some Err.noHistUpdate →
      (c.Exec f).2 = none ∧ (c.Exec f).1.hist = (f c).1.hist ∧
      (c.Exec f).1.working = (f c).1.hist.stack) ∧
    (∀ e, (f c).2 = some e → e ≠ Err.noHistUpdate →
      (c.Exec f).2 = some e ∧ (c.Exec f).1.hist = (f c).1.hist ∧
      (c.Exec f).1.working = (f c).1.hist.stack) := by
  refine ⟨?_, ?_, ?_, ?_⟩
  · intro h hk
    rw [Exec_ok c f h, if_pos hk]
    exact ⟨rfl, rfl, rfl⟩
  · intro h hk
    rw [Exec_ok c f h, if_neg (by rw [hk]; simp)]
    exact ⟨rfl, rfl, rfl⟩
  · intro h
    rw [Exec_err_sentinel c f h]
    exact ⟨rfl, rfl, rfl⟩
  · intro e h hne
    rw [Exec_err_other c f h hne]
    exact ⟨rfl, rfl, rfl⟩

/-- Witness for C1: the `Reset` command returns the sentinel, and
`Exec` of it commits nothing and returns success. -/
theorem exec_transaction_protocol_witness :
    (Clac.Reset c010).2 = some Err.noHistUpdate ∧
    ((c010.Exec Clac.Reset).2 = none ∧
     (c010.Exec Clac.Reset).1.hist = (Clac.Reset c010).1.hist ∧
     (c010.Exec Clac.Reset).1.working = (Clac.Reset c010).1.hist.stack) :=
  ⟨rfl, (exec_transaction_protocol c010 Clac.Reset).2.2.1 rfl⟩

/-- C6 (counterexample to the claimed error kind): on the stack
`[0, 10]`, `Sum` pops the count `0` and fails with `InvalidArgument`,
not with `OutOfRange` as claimed. -/
theorem sum_zero_count_counterexample :
    (c010.Sum).2 = some Err.invalidArg ∧
    (c010.Sum).2 ≠ some Err.outOfRange := by decide

/-- C6 (amended): for every stack whose top value is 0, `Sum` fails
with the `InvalidArgument` error; the popped count is consumed and not
restored, and the rest of the stack (and the history) is unchanged by
the `Sum` call. -/
theorem sum_zero_count (c : Clac) (rest : Stack) (h : c.working = 0 :: rest) :
    (c.Sum).2 = some Err.invalidArg ∧
    (c.Sum).1 = { c with working := rest } := by
  have hpc : c.popCount = (.error Err.invalidArg, { c with working := rest }) := by
    show c.popIntMin 1 = _
    rw [popIntMin_cons c h 1]
    rw [if_pos (by decide), if_pos (by decide)]
  have := applyFloat_variadic_countErr c
    (fun vals => reduceFloat 0 vals (fun a b => binary a "+" b)) hpc
  unfold Clac.Sum
  rw [this]
  exact ⟨rfl, rfl⟩

/-- Witness for C6 at the concrete stack `[0, 10]`. -/
theorem sum_zero_count_witness :
    c010.working = 0 :: [10] ∧
    ((c010.Sum).2 = some Err.invalidArg ∧
     (c010.Sum).1 = { c010 with working := [10] }) :=
  ⟨rfl, sum_zero_count c010 [10] rfl⟩

/-- C7: on the stack `[0, 10]` (top-first: x = 0, y = 10), the `Div`
command executed through `Exec` fails with the `InvalidArgument` error
(division by zero) and leaves the stack `[0, 10]` unchanged. -/
theorem div_by_zero_spec :
    (c010.Exec Clac.Div).2 = some Err.invalidArg ∧
    (c010.Exec Clac.Div).1.working = [0, 10] := by decide

/-- C4 (counterexample): the bare `applyFloat` call is not
all-or-nothing — on the stack `[0, 10]` with the `Div` operand
function, the operand function fails after the operands were removed,
and the call returns with the operands still missing rather than the
pre-call stack. -/
theorem applyFloat_not_atomic_counterexample :
    (c010.applyFloat 2 divOperands).2 = some Err.invalidArg ∧
    (c010.applyFloat 2 divOperands).1.working = [] ∧
    (c010.applyFloat 2 divOperands).1.working ≠ c010.working := by decide

/-- C4 (amended): for every arity (fixed or variadic) and every
operand function `f`, `applyFloat`/`applyInt` either succeeds,
consuming exactly a prefix of the stack (the operands, plus the count
in variadic form) and pushing exactly one result, or fails — and then
the removed operands are restored not by the call itself but by the
enclosing `Exec` transaction, whose rollback returns the working stack
to its pre-call state (the calls never touch the history). -/
theorem applyFixedOrVariadic_atomic_via_exec (c : Clac) (arity : Int)
    (f : List Value → Except Err Value) (hsync : c.working = c.hist.stack) :
    ((c.applyFloat arity f).2 = none →
      ∃ n res, n ≤ c.working.length ∧
        (c.applyFloat arity f).1.working = res :: c.working.drop n) ∧
    ((c.applyFloat arity f).2 ≠ none →
      (c.Exec (fun st => st.applyFloat arity f)).1.working = c.working) ∧
    ((c.applyInt arity f).2 = none →
      ∃ n res, n ≤ c.working.length ∧
        (c.applyInt arity f).1.working = res :: c.working.drop n) ∧
    ((c.applyInt arity f).2 ≠ none →
      (c.Exec (fun st => st.applyInt arity f)).1.working = c.working) := by
  refine ⟨(applyFloat_char c arity f).2, ?_, (applyInt_char c arity f).2, ?_⟩
  · intro hne
    rcases he : (c.applyFloat arity f).2 with _ | e
    · exact absurd he hne
    · by_cases hx : e = Err.noHistUpdate
      · subst hx
        rw [Exec_err_sentinel c _ he]
        rw [updateWorking_working, (applyFloat_char c arity f).1.1, ← hsync]
      · rw [Exec_err_other c _ he hx]
        rw [updateWorking_working, (applyFloat_char c arity f).1.1, ← hsync]
  · intro hne
    rcases he : (c.applyInt arity f).2 with _ | e
    · exact absurd he hne
    · by_cases hx : e = Err.noHistUpdate
      · subst hx
        rw [Exec_err_sentinel c _ he]
        rw [updateWorking_working, (applyInt_char c arity f).1.1, ← hsync]
      · rw [Exec_err_other c _ he hx]
        rw [updateWorking_working, (applyInt_char c arity f).1.1, ← hsync]

/-- Witness for C4 at the `[0, 10]` stack with the `Div` operand
function: the call fails, and the stack observed after `Exec` is the
pre-call stack. -/
theorem applyFixedOrVariadic_atomic_via_exec_witness :
    c010.working = c010.hist.stack ∧
    ((c010.applyFloat 2 divOperands).2 ≠ none →
      (c010.Exec (fun st => st.applyFloat 2 divOperands)).1.working =
        c010.working) ∧
    ((c010.applyFloat 2 divOperands).2 ≠ none) :=
  ⟨rfl, (applyFixedOrVariadic_atomic_via_exec c010 2 divOperands rfl).2.1,
   by decide⟩

/-- C8 (counterexample): after `EnableHistory(false)` the working
stack is stale — it differs from the snapshot at the cursor — and the
next command run through `Exec` operates on that stale stack (it sees
`[5]`, not the empty snapshot, so its result is `[7, 5]`). -/
theorem exec_no_refresh_before_counterexample :
    ((Clac.new.Exec (cmdOfFn (List.cons 5))).1.EnableHistory false).working ≠
      ((Clac.new.Exec (cmdOfFn (List.cons 5))).1.EnableHistory
        false).hist.stack ∧
    ((((Clac.new.Exec (cmdOfFn (List.cons 5))).1.EnableHistory false).Exec
        (cmdOfFn (List.cons 7))).1.working = [7, 5]) := by decide

/-- C8 (amended): `Exec` refreshes the working stack from the history
cursor after — not before — every command; hence after construction
and after every `Exec` the working stack equals the cursor snapshot,
and a command invoked through `Exec` from such a synced state observes
the cursor snapshot, but the first `Exec` after `EnableHistory(false)`
runs its command on the stale pre-disable working stack. -/
theorem exec_refreshes_after (c : Clac) (f : Cmd) :
    (c.Exec f).1.working = (c.Exec f).1.hist.stack ∧
    Clac.new.working = Clac.new.hist.stack := by
  refine ⟨?_, rfl⟩
  rcases he : (f c).2 with _ | e
  · rw [Exec_ok c f he]
    split_ifs <;> rfl
  · by_cases hx : e = Err.noHistUpdate
    · subst hx
      rw [Exec_err_sentinel c f he]
      rfl
    · rw [Exec_err_other c f he hx]
      rfl

/-- C9: the history invariant — the snapshot sequence is never empty
and the cursor is always in range — holds after construction and is
preserved by every operation on the engine: `Exec` of any command that
does not itself touch the history (covering the retain and ephemeral
commit of the working stack), `Exec` of `Undo` and of `Redo`, `Reset`,
and `EnableHistory`. -/
theorem invariant_preserved :
    Invariant Clac.new ∧
    (∀ (c : Clac) (f : Cmd), Invariant c →
      (f c).1.hist = c.hist → Invariant (c.Exec f).1) ∧
    (∀ c : Clac, Invariant c → Invariant (c.Exec Clac.Undo).1) ∧
    (∀ c : Clac, Invariant c → Invariant (c.Exec Clac.Redo).1) ∧
    (∀ c : Clac, Invariant (c.Exec Clac.Reset).1) ∧
    (∀ (c : Clac) (b : Bool), Invariant c → Invariant (c.EnableHistory b)) := by
  refine ⟨by decide, ?_, ?_, ?_, ?_, ?_⟩
  · intro c f hinv hfh
    obtain ⟨hne, hcur⟩ := hinv
    rcases he : (f c).2 with _ | e
    · rw [Exec_ok c f he]
      split_ifs with hk
      · refine ⟨?_, ?_⟩
        · show ((f c).1.hist.push (f c).1.working).hist ≠ []
          simp [StackHist.push]
        · show ((f c).1.hist.push (f c).1.working).cur <
            ((f c).1.hist.push (f c).1.working).hist.length
          rw [hfh]
          simp [StackHist.push]
          omega
      · refine ⟨?_, ?_⟩
        · show ((f c).1.hist.replace (f c).1.working).hist ≠ []
          rw [hfh]
          unfold StackHist.replace
          dsimp only
          intro hkk
          apply hne
          have hlen := congrArg List.length hkk
          simp at hlen
          exact hlen
        · show ((f c).1.hist.replace (f c).1.working).cur <
            ((f c).1.hist.replace (f c).1.working).hist.length
          rw [hfh]
          simp [StackHist.replace]
          omega
    · have hbr : ∀ hE, c.Exec f = ((f c).1.updateWorking, hE) →
          Invariant (c.Exec f).1 := by
        intro hE hEq
        rw [hEq]
        refine ⟨?_, ?_⟩
        · show (f c).1.hist.hist ≠ []
          rw [hfh]
          exact hne
        · show (f c).1.hist.cur < (f c).1.hist.hist.length
          rw [hfh]
          exact hcur
      by_cases hx : e = Err.noHistUpdate
      · subst hx
        exact hbr none (Exec_err_sentinel c f he)
      · exact hbr (some e) (Exec_err_other c f he hx)
  · intro c hinv
    obtain ⟨hne, hcur⟩ := hinv
    by_cases h0 : 0 < c.hist.cur
    · rw [Exec_Undo_pos c h0]
      exact ⟨hne, by dsimp only; omega⟩
    · rw [Exec_Undo_zero c (by omega)]
      exact ⟨hne, hcur⟩
  · intro c hinv
    obtain ⟨hne, hcur⟩ := hinv
    by_cases h0 : c.hist.cur + 1 < c.hist.hist.length
    · rw [Exec_Redo_lt c h0]
      exact ⟨hne, by dsimp only; omega⟩
    · rw [Exec_Redo_last c (by omega)]
      exact ⟨hne, hcur⟩
  · intro c
    rw [Exec_err_sentinel c _ rfl]
    exact ⟨by simp [Clac.Reset, newStackHist], by simp [Clac.Reset, newStackHist]⟩
  · intro c b hinv
    unfold Clac.EnableHistory
    split_ifs
    · exact hinv
    · exact ⟨by simp [newStackHist], by simp [newStackHist]⟩

/-- Witness for C9: the invariant holds and is preserved on a concrete
state under a concrete stack command. -/
theorem invariant_preserved_witness :
    Invariant c010 ∧ (cmdOfFn (List.cons 5) c010).1.hist = c010.hist ∧
    Invariant (c010.Exec (cmdOfFn (List.cons 5))).1 :=
  ⟨by decide, rfl,
   invariant_preserved.2.1 c010 (cmdOfFn (List.cons 5)) (by decide) rfl⟩

/-- C2: from every synced retain-mode state, for every sequence of `n`
commands that each succeed normally through `Exec`, calling `Undo` `n`
times succeeds every time and returns the working stack to the initial
state, and then calling `Redo` `n` times succeeds every time and
returns it to the state after the `n`-th command. -/
theorem undo_redo_roundtrip (c : Clac) (gs : List (Stack → Stack))
    (hk : c.keepHist = true) (hcur : c.hist.cur < c.hist.hist.length)
    (hsync : c.working = c.hist.stack) :
    (execUndoN gs.length (execCmds c gs)).2 = true ∧
    (execUndoN gs.length (execCmds c gs)).1.working = c.working ∧
    (execRedoN gs.length (execUndoN gs.length (execCmds c gs)).1).2 = true ∧
    (execRedoN gs.length (execUndoN gs.length (execCmds c gs)).1).1.working =
      (execCmds c gs).working := by
  rcases gs with _ | ⟨g, rest⟩
  · exact ⟨rfl, rfl, rfl, rfl⟩
  · have hc1 := execCmds_cons_char rest g c hk hcur hsync
    rw [hc1]
    have htl : (c.hist.hist.take (c.hist.cur + 1)).length = c.hist.cur + 1 := by
      simp
      omega
    have hA : (c.hist.hist.take (c.hist.cur + 1) ++
        snapList (g :: rest) c.working).getD
          (c.hist.cur + (g :: rest).length) [] =
        applyAll (g :: rest) c.working := by
      rw [getD_append_right _ _ _ _ (by rw [htl]; simp)]
      rw [htl]
      rw [show c.hist.cur + (g :: rest).length - (c.hist.cur + 1) =
          (g :: rest).length - 1 by simp; omega]
      rw [snapList_getD_last _ _ (by simp)]
    have hW : (c.hist.hist.take (c.hist.cur + 1) ++
        snapList (g :: rest) c.working).getD c.hist.cur [] = c.working := by
      rw [getD_append_left _ _ _ _ (by rw [htl]; omega),
          getD_take _ _ _ _ (by omega)]
      exact hsync.symm
    have hHlen : (c.hist.hist.take (c.hist.cur + 1) ++
        snapList (g :: rest) c.working).length =
        c.hist.cur + 1 + (g :: rest).length := by
      rw [List.length_append, htl, snapList_length]
    rw [execUndoN_char (g :: rest).length _ (by dsimp only; omega)
        (by exact hA.symm)]
    dsimp only
    rw [show c.hist.cur + (g :: rest).length - (g :: rest).length =
        c.hist.cur by omega]
    rw [execRedoN_char (g :: rest).length _
        (by dsimp only; rw [hHlen]; omega) rfl]
    dsimp only
    exact ⟨rfl, hW, rfl, hA⟩

/-- Witness for C2: a concrete two-command run on a fresh calculator,
undone twice and redone twice. -/
theorem undo_redo_roundtrip_witness :
    Clac.new.keepHist = true ∧
    Clac.new.hist.cur < Clac.new.hist.hist.length ∧
    Clac.new.working = Clac.new.hist.stack ∧
    ((execUndoN 2 (execCmds Clac.new [List.cons 5, List.cons 7])).2 = true ∧
     (execUndoN 2 (execCmds Clac.new [List.cons 5, List.cons 7])).1.working =
       Clac.new.working ∧
     (execRedoN 2 (execUndoN 2
         (execCmds Clac.new [List.cons 5, List.cons 7])).1).2 = true ∧
     (execRedoN 2 (execUndoN 2
         (execCmds Clac.new [List.cons 5, List.cons 7])).1).1.working =
       (execCmds Clac.new [List.cons 5, List.cons 7]).working) :=
  ⟨rfl, by decide, rfl,
   undo_redo_roundtrip Clac.new [List.cons 5, List.cons 7] rfl (by decide) rfl⟩

/-- A state fixed by one `Exec Redo` is fixed by any number of them. -/
theorem redoN_fixed (c3 : Clac) (hfix : (c3.Exec Clac.Redo).1 = c3) :
    ∀ m, redoN m c3 = c3 := by
  intro m
  induction m with
  | zero => rfl
  | succ mm ih => rw [redoN, hfix, ih]

/-- Committing a successful stack command in retain mode puts the
cursor on the new tail of the history, so `Redo` fails with
`no more changes` and the state is unchanged by any number of
`Redo` attempts. -/
theorem exec_commit_kills_redo (c2 : Clac) (g : Stack → Stack)
    (hk : c2.keepHist = true) (hcur : c2.hist.cur < c2.hist.hist.length) :
    ((c2.Exec (cmdOfFn g)).1.Exec Clac.Redo).2 = some Err.noMoreChanges ∧
    (∀ m, redoN m (c2.Exec (cmdOfFn g)).1 = (c2.Exec (cmdOfFn g)).1) := by
  rw [Exec_cmdOfFn c2 g hk hcur]
  dsimp only
  have hlen : ((c2.hist.push (g c2.working)).hist).length =
      c2.hist.cur + 2 := by
    simp [StackHist.push]
    omega
  have hcond : (⟨g c2.working, true, c2.hist.push (g c2.working)⟩ :
      Clac).hist.hist.length ≤
      (⟨g c2.working, true, c2.hist.push (g c2.working)⟩ : Clac).hist.cur + 1 := by
    dsimp only
    rw [hlen]
    show c2.hist.cur + 2 ≤ (c2.hist.push (g c2.working)).cur + 1
    unfold StackHist.push
    dsimp only
    omega
  have hfix : ((⟨g c2.working, true, c2.hist.push (g c2.working)⟩ : Clac).Exec
      Clac.Redo).1 = ⟨g c2.working, true, c2.hist.push (g c2.working)⟩ := by
    rw [Exec_Redo_last _ hcond]
    dsimp only
    rw [StackHist_push_stack _ _ hcur]
  refine ⟨?_, redoN_fixed _ hfix⟩
  rw [Exec_Redo_last _ hcond]

/-- C3: after one or more successful `Undo` calls, executing a new
mutating command through `Exec` that succeeds in retain mode discards
every previously redoable state: the next `Redo` fails with the
`NoMoreChanges` error and leaves the state unchanged, as does every
further `Redo`, until another `Undo` occurs. -/
theorem redo_discarded_after_new_command (c : Clac) (k : Nat)
    (g : Stack → Stack) (hk : c.keepHist = true)
    (hcur : c.hist.cur < c.hist.hist.length)
    (hsync : c.working = c.hist.stack) (hk1 : 1 ≤ k) (hku : k ≤ c.hist.cur) :
    (execUndoN k c).2 = true ∧
    (((execUndoN k c).1.Exec (cmdOfFn g)).1.Exec Clac.Redo).2 =
      some Err.noMoreChanges ∧
    (∀ m, redoN m ((execUndoN k c).1.Exec (cmdOfFn g)).1 =
      ((execUndoN k c).1.Exec (cmdOfFn g)).1) := by
  have hchar := execUndoN_char k c hku hsync
  have hkeep : (execUndoN k c).1.keepHist = true := by rw [hchar]; exact hk
  have hc2 : (execUndoN k c).1.hist.cur <
      (execUndoN k c).1.hist.hist.length := by
    rw [hchar]
    dsimp only
    omega
  obtain ⟨h1, h2⟩ := exec_commit_kills_redo (execUndoN k c).1 g hkeep hc2
  exact ⟨by rw [hchar], h1, h2⟩

/-- Witness for C3: push twice on a fresh calculator, undo once, push
again; `Redo` then fails and changes nothing. -/
theorem redo_discarded_after_new_command_witness :
    (execCmds Clac.new [List.cons 5, List.cons 7]).keepHist = true ∧
    1 ≤ (execCmds Clac.new [List.cons 5, List.cons 7]).hist.cur ∧
    ((execUndoN 1 (execCmds Clac.new [List.cons 5, List.cons 7])).2 = true ∧
     (((execUndoN 1 (execCmds Clac.new [List.cons 5, List.cons 7])).1.Exec
         (cmdOfFn (List.cons 9))).1.Exec Clac.Redo).2 =
       some Err.noMoreChanges ∧
     (∀ m, redoN m ((execUndoN 1
           (execCmds Clac.new [List.cons 5, List.cons 7])).1.Exec
         (cmdOfFn (List.cons 9))).1 =
       ((execUndoN 1 (execCmds Clac.new [List.cons 5, List.cons 7])).1.Exec
         (cmdOfFn (List.cons 9))).1)) :=
  ⟨rfl, by decide,
   redo_discarded_after_new_command
     (execCmds Clac.new [List.cons 5, List.cons 7]) 1 (List.cons 9)
     rfl (by decide) rfl (by decide) (by decide)⟩

/-- Unrolling the factorial loop once from the right. -/
theorem factGo_succ (k : Nat) : ∀ (i : Int) (acc : Value),
    factGo (k + 1) i acc = factGo k i acc * ((i + (k : Int) : Int) : Value) := by
  induction k with
  | zero =>
      intro i acc
      show acc * (i : Value) = factGo 0 i acc * ((i + 0 : Int) : Value)
      simp [factGo]
  | succ m ih =>
      intro i acc
      show factGo (m + 1) (i + 1) (acc * (i : Value)) =
        factGo (m + 1) i acc * ((i + ((m : Int) + 1) : Int) : Value)
      rw [ih (i + 1) (acc * (i : Value))]
      show factGo m (i + 1) (acc * (i : Value)) *
          ((i + 1 + (m : Int) : Int) : Value) = _
      rw [show factGo (m + 1) i acc = factGo m (i + 1) (acc * (i : Value))
          from rfl]
      rw [show i + 1 + (m : Int) = i + ((m : Int) + 1) by ring]

/-- The factorial loop started at 2 computes a factorial. -/
theorem factGo_eq_factorial : ∀ m : Nat,
    factGo m 2 1 = ((m + 1).factorial : Value) := by
  intro m
  induction m with
  | zero => simp [factGo, Nat.factorial]
  | succ mm ih =>
      rw [factGo_succ mm 2 1, ih,
          show (mm + 1 + 1).factorial = (mm + 1 + 1) * (mm + 1).factorial
            from Nat.factorial_succ _]
      push_cast
      ring

/-- The whole `factorial` loop denotes the factorial of the input
clamped at zero. -/
theorem factLoop_eq (n : Int) :
    factGo (n - 1).toNat 2 1 = ((n.toNat.factorial : Nat) : Value) := by
  by_cases hn : n ≤ 1
  · have h1 : (n - 1).toNat = 0 := by omega
    have h2 : n.toNat = 0 ∨ n.toNat = 1 := by omega
    rw [h1]
    rcases h2 with h | h <;> rw [h] <;> simp [factGo, Nat.factorial]
  · have h1 : (n - 1).toNat = n.toNat - 1 := by omega
    have h2 : n.toNat - 1 + 1 = n.toNat := by omega
    rw [h1, factGo_eq_factorial, h2]

/-- C10 (counterexample): the stack value `-2^64` is a negative
integer truncating to itself (so `n ≤ 1` and the claim asserts
`Factorial` succeeds pushing `1`), but the truncation overflows the
engine's machine-integer type, the `value.Int` type assertion fails,
and `Factorial` reports `InvalidArgument`. -/
theorem factorial_overflow_counterexample :
    truncInt ((-18446744073709551616 : Int) : Value) ≤ 1 ∧
    ((⟨[((-18446744073709551616 : Int) : Value)], true,
        ⟨0, [[((-18446744073709551616 : Int) : Value)]]⟩⟩ :
          Clac).Factorial).2 = some Err.invalidArg := by decide

/-- C10 (amended): for every stack value `x` whose truncation toward
zero is an integer `n` within the engine's machine-integer (int64)
range, `Factorial` succeeds and pushes the factorial of `n` clamped at
zero, computed by repeated multiplication — in particular `1` for
every `n ≤ 1`, including `0` and every in-range negative integer; for
a truncation outside that range the `value.Int` type assertion fails
and `Factorial` reports `InvalidArgument` (the spec's
truncation-overflow case), with the operand consumed by the bare
call. -/
theorem factorial_spec (c : Clac) (x : Value) (rest : Stack)
    (h : c.working = x :: rest) :
    ((int64Min ≤ truncInt x ∧ truncInt x ≤ int64Max) →
      (c.Factorial).2 = none ∧
      (c.Factorial).1 = { c with working :=
        (((truncInt x).toNat.factorial : Nat) : Value) :: rest } ∧
      (truncInt x ≤ 1 → (c.Factorial).1.working = 1 :: rest)) ∧
    (¬(int64Min ≤ truncInt x ∧ truncInt x ≤ int64Max) →
      (c.Factorial).2 = some Err.invalidArg ∧
      (c.Factorial).1 = { c with working := rest }) := by
  have hrm : c.remove 0 1 = (.ok [x], { c with working := rest }) := by
    rw [remove_ok c (by omega) (by omega) (by rw [h]; simp)]
    rw [h]
    norm_num
  have hfac : factorial ((truncInt x : Int) : Value) =
      if int64Min ≤ truncInt x ∧ truncInt x ≤ int64Max then
        .ok (((truncInt x).toNat.factorial : Nat) : Value)
      else .error Err.invalidArg := by
    unfold factorial
    rw [valToInt_eq, truncInt_intCast]
    split_ifs with hr
    · dsimp only
      rw [factLoop_eq]
    · rfl
  have hf1 : (truncInt x ≤ 1 →
      (((truncInt x).toNat.factorial : Nat) : Value) = 1) := by
    intro hle
    have h01 : (truncInt x).toNat = 0 ∨ (truncInt x).toNat = 1 := by omega
    rcases h01 with h0 | h0 <;> rw [h0] <;> simp [Nat.factorial]
  unfold Clac.Factorial Clac.applyInt
  rw [if_neg (by norm_num)]
  dsimp only
  rw [hrm]
  dsimp only
  rw [truncVals_eq]
  dsimp only
  simp only [List.map_cons, List.map_nil, List.getD_cons_zero]
  rw [hfac]
  refine ⟨?_, ?_⟩
  · intro hr
    rw [if_pos hr]
    dsimp only
    rw [push_eq]
    refine ⟨rfl, rfl, ?_⟩
    intro hle
    dsimp only
    rw [hf1 hle]
  · intro hr
    rw [if_neg hr]
    exact ⟨rfl, rfl⟩

/-- Witness for C10 at the concrete in-range negative fractional input
`-7/2` (truncating to `-3`): `Factorial` succeeds and pushes `1`. -/
theorem factorial_spec_witness :
    (⟨[mkRat (-7) 2], true, ⟨0, [[mkRat (-7) 2]]⟩⟩ : Clac).working =
      mkRat (-7) 2 :: [] ∧
    (int64Min ≤ truncInt (mkRat (-7) 2) ∧
      truncInt (mkRat (-7) 2) ≤ int64Max) ∧
    truncInt (mkRat (-7) 2) ≤ 1 ∧
    ((⟨[mkRat (-7) 2], true, ⟨0, [[mkRat (-7) 2]]⟩⟩ :
        Clac).Factorial).1.working = 1 :: [] :=
  ⟨rfl, by decide, by decide,
   ((factorial_spec ⟨[mkRat (-7) 2], true, ⟨0, [[mkRat (-7) 2]]⟩⟩
       (mkRat (-7) 2) [] rfl).1 (by decide)).2.2 (by decide)⟩

end Clac2Proof